import Mathlib

/-!
Shallow embedding of the cc11 C preprocessor core
(`src/include/prepro/*.hpp`) together with proofs about its macro
expander, conditional-compilation manager, LRU cache and token model.

The definitions below are direct translations of the C++ source:
  * `Token`, `TokenKind`, `TypeInfo`  — `base_types.hpp`
  * `ObjectMacro.expand`, `FunctionMacro.expand` (with `stringize` /
    `paste` / the GNU comma-elision branch) — `macro_manager.hpp`
  * `ConditionalManager.push/pop/skip_conditional/eval_const_expression`
    — `conditional_manager.hpp`
  * `IfdefCommand.execute` — `command.hpp` (with `skip_lines` from
    `include_manager.hpp`)
  * `lruPut` / `lruGet` / `lruErase` — `lru_cache.hpp`
  * `TokenN.copy` — `Token::copy` from `base_types.hpp`/`basic_types.hpp`

C++ `shared_ptr<Token>` chains are embedded as Lean lists (a stream
position is the list suffix starting at that token); `std::unordered_set`
hidesets are embedded as `Finset String`; code paths that `throw` via
`ErrorHandler::error` are embedded as `Except PpError`.
-/

namespace CC11

/-- Token kinds, from `enum class TokenKind` in `base_types.hpp`. -/
inductive TokenKind where
  | TK_EOF | TK_IDENT | TK_NUM | TK_STR | TK_WSTR | TK_PP_NUM
  | TK_HASH | TK_LPAREN | TK_RPAREN | TK_COMMA | TK_PLUS | TK_MINUS
  deriving DecidableEq, Repr

/-- Type kinds, from `enum class TypeKind` in `base_types.hpp`. -/
inductive TypeKind where
  | TY_VOID | TY_INT | TY_FLOAT | TY_STR | TY_WSTR | TY_ARRAY
  deriving DecidableEq, Repr

/-- The `Type` objects attached to tokens (`Type::create_basic_type`):
only the kind and byte size are ever set on the paths modelled here. -/
structure TypeInfo where
  kind : TypeKind
  size : Nat
  deriving DecidableEq, Repr

/-- `Type::create_basic_type(kind, size)` from `base_types.hpp`. -/
def TypeInfo.create_basic_type (kind : TypeKind) (size : Nat) : TypeInfo :=
  ⟨kind, size⟩

/-- Per-token hideset (`using Hideset = std::unordered_set<std::string>`). -/
abbrev Hideset := Finset String

/-- A token's content fields, from `class Token` in `base_types.hpp`.
The `next` pointer of the C++ token is not a field here: token streams
are embedded as `List Token`, and the one claim about `next`
(`Token::copy`) uses the linked representation `TokenN` below.
`file` abbreviates the shared `FileInfo` pointer by its `file_number`. -/
structure Token where
  kind : TokenKind
  src : String
  length : Nat
  file : Nat
  hideset : Hideset
  type : Option TypeInfo
  string_value : String
  value : Int
  deriving DecidableEq

namespace Token

/-- `Token::create(kind, src, length, file)`: the remaining fields keep
their defaults (empty hideset, null type, empty string value, value 0). -/
def create (kind : TokenKind) (src : String) (length : Nat) (file : Nat) : Token :=
  { kind := kind, src := src, length := length, file := file,
    hideset := ∅, type := none, string_value := "", value := 0 }

/-- The raw text of a token: `src.substr(0, length)`. -/
def text (t : Token) : String := t.src.take t.length

/-- `Token::copy()` restricted to the content fields (the `next` pointer,
always nulled by `copy`, lives in `TokenN`). -/
def copy (t : Token) : Token :=
  { kind := t.kind, src := t.src, length := t.length, file := t.file,
    hideset := t.hideset, type := t.type, string_value := t.string_value,
    value := t.value }

/-- `Token::is_hash()`. -/
def is_hash (t : Token) : Bool := t.kind = TokenKind.TK_HASH

/-- `Token::equals(target)`: identifier kind and
`src.compare(0, length, target) == 0`. -/
def equals (t : Token) (target : String) : Bool :=
  t.kind = TokenKind.TK_IDENT ∧ t.text = target

/-- `Token::add_hideset(hs)`: insert every name of `hs` into the token's
hideset. -/
def add_hideset (t : Token) (hs : Hideset) : Token :=
  { t with hideset := t.hideset ∪ hs }

end Token

/-- The error conditions raised through `ErrorHandler::get_instance().error`
(which throws) on the code paths modelled here, plus the two C++ library
exceptions reachable from the comma-elision branch. -/
inductive PpError where
  | stringizeNoParam      -- "# must be followed by macro parameter!"
  | stringizeBadParam     -- "# not followed by valid parameter!"
  | pasteAtEdge           -- "## cannot be at start/end of macro!"
  | badOptionalAccess     -- std::bad_optional_access from va_args_name.value()
  | mapAtOutOfRange       -- std::out_of_range from arg_map.at(...)
  | strayEndif            -- "stray #endif (no matching #if)"
  | noActiveConditional   -- "no active conditional directive"
  | unterminatedConditional -- "unterminated conditional directive (missing #endif)"
  | invalidDefinedUsage   -- "invalid 'define' usage (expected macro name)"
  | emptyConstExpr        -- "empty constant expression in #if"
  | directiveRequiresName -- "#ifdef requires macro name (identifier)"
  deriving DecidableEq, Repr

/-- Object macro (`class ObjectMacro` in `macro_manager.hpp`). -/
structure ObjectMacro where
  name : String
  body : List Token

/-- `ObjectMacro::expand(call_token, args)`: copy every body token and
add `call_token->hideset ∪ {name}` to the copy's hideset. -/
def ObjectMacro.expand (m : ObjectMacro) (call_token : Token) : List Token :=
  let new_hideset : Hideset := insert m.name call_token.hideset
  m.body.map (fun token => (token.copy).add_hideset new_hideset)

/-- One actual argument of a function-macro call (`struct MacroArg`). -/
structure MacroArg where
  name : String
  is_va_args : Bool := false
  tokens : List Token

/-- Function macro (`class FunctionMacro` in `macro_manager.hpp`). -/
structure FunctionMacro where
  name : String
  params : List String
  va_args_name : Option String
  body : List Token

namespace FunctionMacro

/-- The `arg_map` built by `FunctionMacro::expand`: an `unordered_map`
filled left to right (`arg_map[arg.name] = &arg`), so a later argument
with the same name overwrites an earlier one. -/
def argMapFind (args : List MacroArg) (name : String) : Option MacroArg :=
  args.foldl (fun acc arg => if arg.name = name then some arg else acc) none

/-- `FunctionMacro::stringize(hash_token, arg_tokens)`: concatenate the
raw text of the argument tokens, wrap in quotes, and build a `TK_STR`
token whose `string_value` is the unquoted buffer and whose type is
`TY_STR` of size `buffer_with_quotes + 1`. -/
def stringize (hash_token : Token) (arg_tokens : List Token) : Token :=
  let buffer := String.join (arg_tokens.map Token.text)
  let string_with_quotes := "\"" ++ buffer ++ "\""
  { Token.create TokenKind.TK_STR string_with_quotes string_with_quotes.length
      hash_token.file with
    string_value := buffer,
    type := some (TypeInfo.create_basic_type TypeKind.TY_STR
      (string_with_quotes.length + 1)) }

/-- `FunctionMacro::paste(lhs, rhs)`: concatenate the raw text of the two
operands into one fresh `TK_IDENT` token. -/
def paste (lhs rhs : Token) : Token :=
  let buffer := lhs.text ++ rhs.text
  Token.create TokenKind.TK_IDENT buffer buffer.length lhs.file

/-- The body scan of `FunctionMacro::expand`, macro_manager.hpp lines
102-160, translated branch for branch.  Arguments:
`bodyRest` is the remaining body suffix (`body[i..]`), `acc` the emitted
tokens in reverse order (`expanded`, head = `expanded.back()`), and `ch`
the hideset of the shared call-site token (which the C++ parameter
substitution branch mutates through `call_token->add_hideset` — note:
the copied argument token itself is left untagged there).  The result is
the expanded token list together with the final call-token hideset. -/
def expandLoop (m : FunctionMacro) (args : List MacroArg)
    (new_hideset : Hideset) :
    List Token → List Token → Hideset → Except PpError (List Token × Hideset)
  | [], acc, ch => .ok (acc.reverse, ch)
  | token :: bodyRest, acc, ch =>
    if token.kind = TokenKind.TK_HASH then
      -- stringize branch (lines 104-117): any TK_HASH body token
      match bodyRest with
      | [] => .error .stringizeNoParam
      | param_token :: rest2 =>
        match argMapFind args param_token.text with
        | none => .error .stringizeBadParam
        | some arg =>
          -- `++i; continue`: skip the `#` and the parameter token
          expandLoop m args new_hideset rest2
            (stringize token arg.tokens :: acc) ch
    else
      match bodyRest with
      | t1 :: t2 :: rest3 =>
        -- GNU comma elision `, ## __VA_ARGS__` (lines 120-131)
        if token.kind = TokenKind.TK_COMMA ∧ t1.kind = TokenKind.TK_HASH ∧
            t1.length = 2 ∧ t2.equals (m.va_args_name.getD "") = true then
          match m.va_args_name with
          | none => .error .badOptionalAccess   -- va_args_name.value()
          | some va =>
            match argMapFind args va with
            | none => .error .mapAtOutOfRange   -- arg_map.at(...)
            | some va_arg =>
              if va_arg.tokens.isEmpty then
                -- `i += 2; continue`: drop comma, `##`, `__VA_ARGS__`
                expandLoop m args new_hideset rest3 acc ch
              else
                -- keep an (untagged) copy of the comma, skip only `##`
                expandLoop m args new_hideset (t2 :: rest3)
                  (token.copy :: acc) ch
        -- token-paste branch (lines 133-142); its guard needs
        -- `token.kind == TK_HASH`, already consumed by the stringize
        -- branch above, so this code is unreachable
        else if token.kind = TokenKind.TK_HASH ∧ t1.kind = TokenKind.TK_HASH then
          match acc with
          | [] => .error .pasteAtEdge
          | last_token :: accTail =>
            expandLoop m args new_hideset rest3
              (paste last_token t2 :: accTail) ch
        -- parameter substitution (lines 144-155)
        else if token.kind = TokenKind.TK_IDENT ∧
            (argMapFind args token.text).isSome then
          match argMapFind args token.text with
          | some arg =>
            -- per argument token: push an untagged copy, while
            -- `call_token->add_hideset(new_hideset)` mutates the call
            -- token's hideset instead of the copy's
            expandLoop m args new_hideset (t1 :: t2 :: rest3)
              ((arg.tokens.map Token.copy).reverse ++ acc)
              (if arg.tokens.isEmpty then ch else ch ∪ new_hideset)
          | none => .error .stringizeBadParam  -- unreachable: isSome guard
        else
          -- default: copy the token and tag it with `new_hideset`
          expandLoop m args new_hideset (t1 :: t2 :: rest3)
            ((token.copy.add_hideset new_hideset) :: acc) ch
      | shortRest =>
        -- fewer than two lookahead tokens: the comma-elision guard
        -- (`i + 2 < body.size()`) is false, and the paste guard needs
        -- `token.kind == TK_HASH`, impossible in this else-branch, so
        -- only parameter substitution and the default copy remain
        if token.kind = TokenKind.TK_IDENT ∧
            (argMapFind args token.text).isSome then
          match argMapFind args token.text with
          | some arg =>
            expandLoop m args new_hideset shortRest
              ((arg.tokens.map Token.copy).reverse ++ acc)
              (if arg.tokens.isEmpty then ch else ch ∪ new_hideset)
          | none => .error .stringizeBadParam
        else
          expandLoop m args new_hideset shortRest
            ((token.copy.add_hideset new_hideset) :: acc) ch

/-- `FunctionMacro::expand(call_token, args)`: build the argument map,
compute `new_hideset = call_token->hideset ∪ {name}`, and scan the body.
Returns the expanded tokens together with the call token's final
hideset (the C++ code mutates the shared call token). -/
def expand (m : FunctionMacro) (call_token : Token) (args : List MacroArg) :
    Except PpError (List Token × Hideset) :=
  let new_hideset : Hideset := insert m.name call_token.hideset
  expandLoop m args new_hideset m.body [] call_token.hideset

end FunctionMacro

/-- Branch context of one conditional frame (`enum ConditionalContext`). -/
inductive ConditionalContext where
  | IN_THEN | IN_ELIF | IN_ELSE
  deriving DecidableEq, Repr

/-- One conditional-stack frame (`struct ConditionalEntry`). -/
structure ConditionalEntry where
  ctx : ConditionalContext
  token : Token
  included : Bool
  deriving DecidableEq

namespace ConditionalManager

/-- `ConditionalManager::push`: `stack.emplace_back(...)` — the top of
the stack is the back of the list. -/
def push (stack : List ConditionalEntry) (ctx : ConditionalContext)
    (token : Token) (included : Bool) : List ConditionalEntry :=
  stack ++ [⟨ctx, token, included⟩]

/-- `ConditionalManager::pop`: raises the stray-`#endif` error on an
empty stack (the C++ `error` throws before `pop_back` runs, so the stack
is not modified), otherwise drops the back element. -/
def pop (stack : List ConditionalEntry) :
    Except PpError (List ConditionalEntry) :=
  if stack.isEmpty then .error .strayEndif else .ok stack.dropLast

/-- `ConditionalManager::is_empty`. -/
def is_empty (stack : List ConditionalEntry) : Bool := stack.isEmpty

/-- Push every frame of `frames` in order (N pushes). -/
def pushAll (stack : List ConditionalEntry) (frames : List ConditionalEntry) :
    List ConditionalEntry :=
  frames.foldl (fun s f => push s f.ctx f.token f.included) stack

/-- Pop `n` times, stopping at the first error. -/
def popN : Nat → List ConditionalEntry → Except PpError (List ConditionalEntry)
  | 0, stack => .ok stack
  | n + 1, stack => (popN n stack) >>= pop

/-- The body scan of `ConditionalManager::skip_conditional`
(conditional_manager.hpp lines 55-88).  The stream position `token` is
the list suffix starting at that token; `nested_level` counts open
inner `#if`-family blocks.  `#` followed by `if`/`ifdef`/`ifndef`
raises the level; a level-0 `#endif` returns the position after the
`endif` identifier; a level-0 `#elif`/`#else` returns the position of
the `#` token itself; reaching EOF (or the end of the chain) raises the
unterminated-conditional error. -/
def skipConditionalFrom : Nat → List Token → Except PpError (List Token)
  | _, [] => .error .unterminatedConditional
  | nested_level, token :: rest =>
    if token.kind = TokenKind.TK_EOF then .error .unterminatedConditional
    else
      match rest with
      | next :: rest2 =>
        if token.is_hash ∧ (next.equals "if" = true ∨ next.equals "ifdef" = true ∨
            next.equals "ifndef" = true) then
          skipConditionalFrom (nested_level + 1) rest2
        else if token.is_hash ∧ next.equals "endif" = true then
          if nested_level = 0 then .ok rest2
          else skipConditionalFrom (nested_level - 1) rest2
        else if token.is_hash ∧ (next.equals "elif" = true ∨
            next.equals "else" = true) then
          if nested_level = 0 then .ok (token :: next :: rest2)
          else skipConditionalFrom nested_level rest2
        else
          skipConditionalFrom nested_level (next :: rest2)
      | [] =>
        -- `token->next` is null: no guard fires, `token = token->next`
        -- ends the loop and the unterminated error is raised
        .error .unterminatedConditional

/-- `ConditionalManager::skip_conditional(token)`: the scan starts with
`nested_level = 0`. -/
def skip_conditional (token : List Token) : Except PpError (List Token) :=
  skipConditionalFrom 0 token

/-- Whether `token` (followed by `rest`) sits on a `#`-directive of the
`#if`-family, `#endif`, `#elif` or `#else` — the lookahead guard used by
every branch of the `skip_conditional` loop. -/
def startsConditionalDirective (token : Token) (rest : List Token) : Prop :=
  token.is_hash = true ∧
    match rest with
    | next :: _ =>
      next.equals "if" = true ∨ next.equals "ifdef" = true ∨
      next.equals "ifndef" = true ∨ next.equals "endif" = true ∨
      next.equals "elif" = true ∨ next.equals "else" = true
    | [] => False

/-- Specification of the `skip_conditional` scan, transcribed from the
spec sentence: scan forward tracking the nesting depth of
`#if`/`#ifdef`/`#ifndef` openings; on a `#elif`/`#else` at the same
depth return the position of the `#` token; on a `#endif` at the same
depth return the position after the `endif` identifier; on reaching EOF
without a terminating directive raise the unterminated-conditional
error. -/
inductive SkipSpec : Nat → List Token → Except PpError (List Token) → Prop where
  | eofNil (depth : Nat) :
      SkipSpec depth [] (.error .unterminatedConditional)
  | eofTok (depth : Nat) (t : Token) (rest : List Token)
      (heof : t.kind = TokenKind.TK_EOF) :
      SkipSpec depth (t :: rest) (.error .unterminatedConditional)
  | opening (depth : Nat) (t n : Token) (rest : List Token)
      (r : Except PpError (List Token))
      (hhash : t.is_hash = true)
      (hname : n.equals "if" = true ∨ n.equals "ifdef" = true ∨
        n.equals "ifndef" = true)
      (hrec : SkipSpec (depth + 1) rest r) :
      SkipSpec depth (t :: n :: rest) r
  | endifSame (t n : Token) (rest : List Token)
      (hhash : t.is_hash = true) (hname : n.equals "endif" = true) :
      SkipSpec 0 (t :: n :: rest) (.ok rest)
  | endifNested (depth : Nat) (t n : Token) (rest : List Token)
      (r : Except PpError (List Token))
      (hhash : t.is_hash = true) (hname : n.equals "endif" = true)
      (hrec : SkipSpec depth rest r) :
      SkipSpec (depth + 1) (t :: n :: rest) r
  | elseSame (t n : Token) (rest : List Token)
      (hhash : t.is_hash = true)
      (hname : n.equals "elif" = true ∨ n.equals "else" = true) :
      SkipSpec 0 (t :: n :: rest) (.ok (t :: n :: rest))
  | elseNested (depth : Nat) (t n : Token) (rest : List Token)
      (r : Except PpError (List Token))
      (hhash : t.is_hash = true)
      (hname : n.equals "elif" = true ∨ n.equals "else" = true)
      (hrec : SkipSpec (depth + 1) rest r) :
      SkipSpec (depth + 1) (t :: n :: rest) r
  | plain (depth : Nat) (t : Token) (rest : List Token)
      (r : Except PpError (List Token))
      (heof : t.kind ≠ TokenKind.TK_EOF)
      (hnd : ¬ startsConditionalDirective t rest)
      (hrec : SkipSpec depth rest r) :
      SkipSpec depth (t :: rest) r

/-- Collect the (copied) expression tokens of the current logical line —
step 1 of `eval_const_expression`: everything from `start_token->next`
up to the next `#` or EOF; the second component is the `rest`
continuation. -/
def evalCollect : List Token → List Token × List Token
  | [] => ([], [])
  | t :: rest =>
    if t.is_hash = true ∨ t.kind = TokenKind.TK_EOF then ([], t :: rest)
    else
      let (expr, r) := evalCollect rest
      (t.copy :: expr, r)

/-- The `num_token` built for a `defined` occurrence: the source
hardcodes `is_defined = false` (a `TODO` in the C++), so the token is
always `"0"` with value 0 and type `TY_INT` of size 4; it takes the
`defined` token's file. -/
def definedReplacement (defined_token : Token) : Token :=
  { Token.create TokenKind.TK_NUM "0" 1 defined_token.file with
    value := 0,
    type := some (TypeInfo.create_basic_type TypeKind.TY_INT 4) }

/-- Step 2 of `eval_const_expression` (lines 101-119): scan for
`defined` identifiers.  For `defined ( NAME )` the code erases
`defined`, `(` and `NAME` (the `)` survives) and inserts the `0` token;
for `defined NAME` it erases only `defined` (leaving `NAME` in place)
and inserts the `0` token; a missing or non-identifier operand is a
fatal error.  The macro table is never consulted. -/
def processDefined : List Token → Except PpError (List Token)
  | [] => .ok []
  | t :: rest =>
    if t.equals "defined" = true then
      match rest with
      | [] => .error .invalidDefinedUsage
      | u :: rest2 =>
        if u.kind = TokenKind.TK_LPAREN then
          match rest2 with
          | [] => .error .invalidDefinedUsage
          | id_tok :: rest3 =>
            if id_tok.kind = TokenKind.TK_IDENT then
              (fun l => definedReplacement t :: l) <$> processDefined rest3
            else .error .invalidDefinedUsage
        else
          if u.kind = TokenKind.TK_IDENT then
            (fun l => definedReplacement t :: l) <$> processDefined (u :: rest2)
          else .error .invalidDefinedUsage
    else
      (fun l => t :: l) <$> processDefined rest

/-- Step 3 of `eval_const_expression` (lines 121-129): every remaining
identifier token is rewritten in place to the number `0` of type
`TY_INT`/4. -/
def identToZero (t : Token) : Token :=
  if t.kind = TokenKind.TK_IDENT then
    { t with
      kind := TokenKind.TK_NUM, value := 0,
      type := some (TypeInfo.create_basic_type TypeKind.TY_INT 4),
      src := "0", length := 1 }
  else t

/-- `ConditionalManager::eval_const_expression`: `after_start` is the
token chain starting at `start_token->next`.  Returns the value (the
placeholder evaluator takes the first token's `value`) and the `rest`
continuation.  An empty expression is a fatal error. -/
def eval_const_expression (after_start : List Token) :
    Except PpError (Int × List Token) :=
  let (expr_tokens, rest) := evalCollect after_start
  match processDefined expr_tokens with
  | .error e => .error e
  | .ok expr1 =>
    match expr1.map identToZero with
    | [] => .error .emptyConstExpr
    | t :: _ => .ok (t.value, rest)

end ConditionalManager

/-- A macro-table entry (`class Macro` hierarchy in
`macro_manager.hpp`): object macro, function macro, or builtin macro
whose handler maps the call-site token to the produced tokens. -/
inductive Macro where
  | object (m : ObjectMacro)
  | function (m : FunctionMacro)
  | builtin (name : String) (handler : Token → List Token)

/-- The macro table (`class MacroManager`): name → macro, last
definition wins.  The `unordered_map` is embedded as an association
list whose most recent binding comes first. -/
structure MacroManager where
  macros : List (String × Macro)

namespace MacroManager

/-- `MacroManager::find_macro(token)`: `nullptr` unless the token is an
identifier whose text is bound in the table. -/
def find_macro (mm : MacroManager) (token : Token) : Option Macro :=
  if token.kind = TokenKind.TK_IDENT then
    (mm.macros.find? (fun p => p.1 = token.text)).map (·.2)
  else none

end MacroManager

/-- `IncludeManager::skip_lines(token)`: advance (warning per token)
until a `#` token or EOF. -/
def skip_lines : List Token → List Token
  | [] => []
  | t :: rest =>
    if t.is_hash = true ∨ t.kind = TokenKind.TK_EOF then t :: rest
    else skip_lines rest

/-- `IfdefCommand::execute(command_token)` (command.hpp lines 157-172):
`command_token` is the `ifdef` identifier and `rest` the chain after
it.  Looks up the named macro (`included` = presence), pushes an
`IN_THEN` frame, skips the rest of the line, and — when the macro is
absent — skips the whole conditional block.  The state threaded through
is the macro table and the conditional stack; the command only reads
the table. -/
def IfdefCommand.execute (mm : MacroManager) (stack : List ConditionalEntry)
    (command_token : Token) (rest : List Token) :
    Except PpError (MacroManager × List ConditionalEntry × List Token) :=
  match rest with
  | [] => .error .directiveRequiresName
  | name_token :: rest2 =>
    if name_token.kind = TokenKind.TK_IDENT then
      let included := (mm.find_macro name_token).isSome
      let stack' := ConditionalManager.push stack ConditionalContext.IN_THEN
        command_token included
      let rest' := skip_lines rest2
      if included then .ok (mm, stack', rest')
      else (ConditionalManager.skip_conditional rest').map
        (fun r => (mm, stack', r))
    else .error .directiveRequiresName

/-! ## LRU cache (`lru_cache.hpp`)

The cache state is the `cache_list_`: a list of key/value pairs whose
front is the most recently touched entry and whose back is the least
recently touched one.  The `cache_map_` only mirrors the list (key →
node) and is left implicit; its one-node-per-key discipline shows up as
the nodup-keys invariant proved below.  Every operation runs under the
single `std::mutex`, so the sequential semantics below is exactly the
per-operation behaviour. -/

/-- `LRUCache::LRUCache(max_size)`: throws `std::invalid_argument` for
a zero capacity, otherwise stores the capacity. -/
def LRUCache.construct (max_size : Nat) : Except String Nat :=
  if max_size = 0 then .error "LRU cache max size cannot be zero!"
  else .ok max_size

/-- `LRUCache::put(key, value)`: an existing key's node is erased and a
fresh pair pushed to the front; otherwise, if the list is full, the
back (least recently used) node is evicted first, then the fresh pair
is pushed to the front. -/
def lruPut {K V : Type} [DecidableEq K] (max_size : Nat)
    (cache_list : List (K × V)) (key : K) (value : V) : List (K × V) :=
  if (cache_list.find? (fun p => decide (p.1 = key))).isSome then
    (key, value) :: cache_list.eraseP (fun p => decide (p.1 = key))
  else if cache_list.length ≥ max_size then
    (key, value) :: cache_list.dropLast
  else
    (key, value) :: cache_list

/-- `LRUCache::get(key)`: a miss returns `none` and leaves the list
alone; a hit splices the node to the front and returns its value. -/
def lruGet {K V : Type} [DecidableEq K] (cache_list : List (K × V))
    (key : K) : Option V × List (K × V) :=
  match cache_list.find? (fun p => decide (p.1 = key)) with
  | none => (none, cache_list)
  | some p => (some p.2, p :: cache_list.eraseP (fun q => decide (q.1 = key)))

/-- `LRUCache::erase(key)`: drop the key's node when present. -/
def lruErase {K V : Type} [DecidableEq K] (cache_list : List (K × V))
    (key : K) : List (K × V) :=
  if (cache_list.find? (fun p => decide (p.1 = key))).isSome then
    cache_list.eraseP (fun p => decide (p.1 = key))
  else cache_list

/-- One cache operation of the put/get/erase interface. -/
inductive LruOp (K V : Type) where
  | put (key : K) (value : V)
  | get (key : K)
  | erase (key : K)

/-- Instrumented cache state: the list, the last-touch time of each key,
and a logical clock.  The touch map and clock are ghost data used to
state recency; the list component is exactly the code's state. -/
structure LruState (K V : Type) where
  list : List (K × V)
  touch : K → Nat
  clock : Nat

/-- Run one operation, time-stamping the touched key: a `put` and a
successful `get` touch their key (the C++ moves the node to the list
front in both cases). -/
def lruStepT {K V : Type} [DecidableEq K] (max_size : Nat)
    (s : LruState K V) : LruOp K V → LruState K V
  | .put key value =>
    ⟨lruPut max_size s.list key value,
      Function.update s.touch key s.clock, s.clock + 1⟩
  | .get key =>
    if (s.list.find? (fun p => decide (p.1 = key))).isSome then
      ⟨(lruGet s.list key).2, Function.update s.touch key s.clock, s.clock + 1⟩
    else ⟨(lruGet s.list key).2, s.touch, s.clock + 1⟩
  | .erase key => ⟨lruErase s.list key, s.touch, s.clock + 1⟩

/-- Run a whole operation sequence from the empty cache. -/
def lruRunT {K V : Type} [DecidableEq K] (max_size : Nat)
    (ops : List (LruOp K V)) : LruState K V :=
  ops.foldl (lruStepT max_size) ⟨[], fun _ => 0, 0⟩

/-- The LRU invariant tying the code's list to the ghost clock: keys are
distinct, the list is strictly ordered by descending last-touch time,
and all stamps are in the past. -/
def LruInv {K V : Type} (s : LruState K V) : Prop :=
  (s.list.map Prod.fst).Nodup ∧
  s.list.Pairwise (fun a b => s.touch b.1 < s.touch a.1) ∧
  ∀ p ∈ s.list, s.touch p.1 < s.clock

/-! ## `Token::copy` with the `next` pointer (`base_types.hpp` lines
99-111, and the `basic_types.hpp` variant lines 178-193) -/

/-- A token node as linked in a stream: its content fields plus the
`next` shared pointer. -/
inductive TokenN : Type where
  | mk (data : Token) (next : Option TokenN) : TokenN

/-- The content fields of a linked token. -/
def TokenN.data : TokenN → Token
  | .mk d _ => d

/-- The `next` pointer of a linked token. -/
def TokenN.next : TokenN → Option TokenN
  | .mk _ n => n

/-- `Token::copy()`: every content field (kind, src, length, file,
hideset, type, string_value, value) is copied from the receiver and the
copy's `next` pointer is set to null — in both `base_types.hpp` and
`basic_types.hpp` (the latter additionally deep-copies the `FileInfo`
and takes the hideset under a shared lock, which changes none of the
copied values). -/
def TokenN.copy (t : TokenN) : TokenN :=
  .mk
    { kind := t.data.kind, src := t.data.src, length := t.data.length,
      file := t.data.file, hideset := t.data.hideset, type := t.data.type,
      string_value := t.data.string_value, value := t.data.value }
    none

/-! ## Concrete tokens and macros for evaluations -/

/-- A lexer-produced identifier token. -/
def mkIdent (s : String) : Token :=
  Token.create TokenKind.TK_IDENT s s.length 0

/-- The `##` operator as it appears in a macro body: one `TK_HASH` token
of length 2 (the representation the comma-elision branch of
`FunctionMacro::expand` tests for: `kind == TK_HASH && length == 2`). -/
def mkHashHash : Token := Token.create TokenKind.TK_HASH "##" 2 0

/-- A directive-introducing `#` token. -/
def mkHashTok : Token := Token.create TokenKind.TK_HASH "#" 1 0

/-- An end-of-file token. -/
def mkEofTok : Token := Token.create TokenKind.TK_EOF "" 0 0

/-- `#define F(x) x` — the identity function macro. -/
def idMacroF : FunctionMacro := ⟨"F", ["x"], none, [mkIdent "x"]⟩

/-- `#define CAT(a,b) a##b` — the token-pasting macro of the spec's
testable property. -/
def catMacro : FunctionMacro :=
  ⟨"CAT", ["a", "b"], none, [mkIdent "a", mkHashHash, mkIdent "b"]⟩

/-- The arguments of the call `CAT(foo, bar)`. -/
def catArgs : List MacroArg :=
  [⟨"a", false, [mkIdent "foo"]⟩, ⟨"b", false, [mkIdent "bar"]⟩]

/-- A body token that already carries a hideset entry `"X"` (as happens
whenever a `#define` body is copied from a stream token that went
through an earlier expansion). -/
def xHiddenTok : Token := { mkIdent "x" with hideset := {"X"} }

/-- An object macro `M` whose body is the single token `xHiddenTok`. -/
def objMacroM : ObjectMacro := ⟨"M", [xHiddenTok]⟩

end CC11

namespace CC11

/-! # Theorems -/

/-- C10: for every token `t`, `t->copy()` returns a token whose kind,
raw text (`src`/`length`), hideset, type, string value and numeric
value equal those of `t`, and whose `next` pointer is null regardless
of `t->next`. -/
theorem token_copy_preserves_fields_nulls_next (t : TokenN) :
    (t.copy).data.kind = t.data.kind ∧
    (t.copy).data.src = t.data.src ∧
    (t.copy).data.length = t.data.length ∧
    (t.copy).data.hideset = t.data.hideset ∧
    (t.copy).data.type = t.data.type ∧
    (t.copy).data.string_value = t.data.string_value ∧
    (t.copy).data.value = t.data.value ∧
    (t.copy).next = none := by
  cases t with
  | mk d n => exact ⟨rfl, rfl, rfl, rfl, rfl, rfl, rfl, rfl⟩

/-- C9: constructing an `LRUCache` with `max_size = 0` throws
`std::invalid_argument`; any positive `max_size` succeeds; and the
zero-capacity error is the only failure of construction. -/
theorem lru_construct_zero_only_failure (max_size : Nat) :
    (max_size = 0 →
      LRUCache.construct max_size = .error "LRU cache max size cannot be zero!") ∧
    (0 < max_size → LRUCache.construct max_size = .ok max_size) ∧
    (∀ e, LRUCache.construct max_size = .error e →
      max_size = 0 ∧ e = "LRU cache max size cannot be zero!") := by
  refine ⟨fun h => ?_, fun h => ?_, fun e he => ?_⟩
  · simp [LRUCache.construct, h]
  · simp [LRUCache.construct, Nat.pos_iff_ne_zero.mp h]
  · by_cases h : max_size = 0
    · rw [LRUCache.construct, if_pos h] at he
      injection he with he'
      exact ⟨h, he'.symm⟩
    · simp [LRUCache.construct, h] at he

/-- Witness for C9 at the concrete capacities 0 and 3. -/
theorem lru_construct_zero_only_failure_witness :
    LRUCache.construct 0 = .error "LRU cache max size cannot be zero!" ∧
    LRUCache.construct 3 = .ok 3 :=
  ⟨(lru_construct_zero_only_failure 0).1 rfl,
   (lru_construct_zero_only_failure 3).2.1 (by decide)⟩

/-- C3 counterexample: `ObjectMacro::expand` adds the new hideset to the
copied body token's *existing* hideset, so when a body token already
carries a hideset entry (here `"X"`), the returned token's hideset is
strictly larger than `call.hideset ∪ {M.name}` — the claimed equality
fails. -/
theorem object_expand_hideset_not_equal :
    ¬ ∀ t ∈ objMacroM.expand (mkIdent "call"),
        t.hideset = (mkIdent "call").hideset ∪ {"M"} := by
  decide

/-- C3 (amended): `ObjectMacro::expand` returns exactly `|B|` tokens
whose raw text matches the body token-for-token in order, and every
returned token's hideset is the body token's hideset *unioned with*
`hideset(call) ∪ {M.name}` — in particular it is tagged with (contains)
`hideset(call) ∪ {M.name}`, though it equals that union only when the
body token's own hideset adds nothing. -/
theorem object_expand_body_pointwise (m : ObjectMacro) (call_token : Token) :
    (m.expand call_token).length = m.body.length ∧
    List.Forall₂
      (fun out src => out.text = src.text ∧
        out.hideset = src.hideset ∪ insert m.name call_token.hideset ∧
        insert m.name call_token.hideset ⊆ out.hideset)
      (m.expand call_token) m.body := by
  constructor
  · simp [ObjectMacro.expand]
  · rw [ObjectMacro.expand, List.forall₂_map_left_iff]
    exact List.forall₂_same.mpr fun src _ => ⟨rfl, rfl, Finset.subset_union_right⟩

/-- Pushing frames appends them at the back of the stack. -/
theorem pushAll_eq_append (stack frames : List ConditionalEntry) :
    ConditionalManager.pushAll stack frames = stack ++ frames := by
  induction frames generalizing stack with
  | nil => simp [ConditionalManager.pushAll]
  | cons f fs ih =>
    simp only [ConditionalManager.pushAll, List.foldl_cons] at *
    rw [show ConditionalManager.push stack f.ctx f.token f.included =
      stack ++ [f] from rfl, ih (stack ++ [f])]
    simp

/-- Popping as many frames as were pushed on top of `stack` restores
`stack`. -/
theorem popN_append (frames stack : List ConditionalEntry) :
    ConditionalManager.popN frames.length (stack ++ frames) = .ok stack := by
  induction frames generalizing stack with
  | nil => simp [ConditionalManager.popN]
  | cons f fs ih =>
    show ConditionalManager.popN (fs.length + 1) (stack ++ f :: fs) = .ok stack
    rw [ConditionalManager.popN,
      show stack ++ f :: fs = (stack ++ [f]) ++ fs by simp, ih (stack ++ [f])]
    show ConditionalManager.pop (stack ++ [f]) = .ok stack
    rw [ConditionalManager.pop, if_neg (by simp), List.dropLast_concat]

/-- C5: for every `N ≥ 0`, pushing `N` frames onto an empty conditional
stack and popping `N` times leaves the stack empty (`is_empty()` holds),
and the `(N+1)`-th pop hits the empty stack and raises the
stray-`#endif` error (the C++ `error` throws before `pop_back`, so the
stack is not modified). -/
theorem conditional_stack_roundtrip (frames : List ConditionalEntry) :
    ConditionalManager.popN frames.length
      (ConditionalManager.pushAll [] frames) = .ok [] ∧
    (ConditionalManager.popN frames.length
      (ConditionalManager.pushAll [] frames)).map ConditionalManager.is_empty
        = .ok true ∧
    ConditionalManager.popN (frames.length + 1)
      (ConditionalManager.pushAll [] frames) = .error .strayEndif ∧
    ConditionalManager.pop [] = .error .strayEndif := by
  have hmain : ConditionalManager.popN frames.length
      (ConditionalManager.pushAll [] frames) = .ok [] := by
    rw [pushAll_eq_append]
    exact popN_append frames []
  refine ⟨hmain, by rw [hmain]; rfl, ?_, rfl⟩
  rw [ConditionalManager.popN, hmain]
  rfl

/-- C1 (code bug): expanding `#define F(x) x` at the call `F(a)` — the
parameter-substitution branch of `FunctionMacro::expand` executes
`call_token->add_hideset(new_hideset)` instead of tagging the copied
argument token, so the emitted token for `a` keeps its original (empty)
hideset while the *call-site* token's hideset absorbs `{"F"}` (the
second component below).  The output token's hideset therefore is not a
superset of `hideset(call) ∪ {"F"}`: it does not even contain the macro
name, contradicting the claimed invariant (and the spec's "hideset
tagging must occur on every emitted token without exception"). -/
theorem funcMacro_substitution_drops_hideset :
    FunctionMacro.expand idMacroF (mkIdent "F") [⟨"x", false, [mkIdent "a"]⟩] =
      .ok ([mkIdent "a"], insert "F" (mkIdent "F").hideset) ∧
    ¬ insert "F" ((mkIdent "F").hideset) ⊆ (mkIdent "a").hideset :=
  ⟨rfl, by decide⟩

/-- C2 (code bug): expanding `#define CAT(a,b) a##b` at the call
`CAT(foo, bar)`.  The stringize branch of `FunctionMacro::expand`
catches *every* `TK_HASH` body token — including the `##` token — so
the token-paste branch (whose guard also needs `kind == TK_HASH`) is
unreachable.  The result is the two tokens `foo` and the stringized
`"bar"` (a `TK_STR`), not the claimed single identifier `foobar`. -/
theorem cat_expansion_never_pastes :
    FunctionMacro.expand catMacro (mkIdent "CAT") catArgs =
      .ok ([mkIdent "foo", FunctionMacro.stringize mkHashHash [mkIdent "bar"]],
        insert "CAT" (mkIdent "CAT").hideset) ∧
    [mkIdent "foo", FunctionMacro.stringize mkHashHash [mkIdent "bar"]].length = 2 ∧
    (FunctionMacro.stringize mkHashHash [mkIdent "bar"]).kind = TokenKind.TK_STR ∧
    (FunctionMacro.stringize mkHashHash [mkIdent "bar"]).text = "\"bar\"" :=
  ⟨rfl, rfl, rfl, by decide⟩

/-- C4 (code bug): `eval_const_expression` hardcodes `is_defined =
false` (a `TODO` in the source) and takes no macro table at all, so
`defined FOO` is replaced by the integer `0` — and the whole `#if
defined FOO` line evaluates to `0` — no matter which macros are
defined.  (The scan also leaves the operand `FOO` in place for the
`defined NAME` form; it then falls to the identifier-to-`0` rewrite.) -/
theorem eval_defined_ignores_macro_table :
    ConditionalManager.processDefined [mkIdent "defined", mkIdent "FOO"] =
      .ok [ConditionalManager.definedReplacement (mkIdent "defined"),
        mkIdent "FOO"] ∧
    (ConditionalManager.definedReplacement (mkIdent "defined")).value = 0 ∧
    ConditionalManager.eval_const_expression
      [mkIdent "defined", mkIdent "FOO", mkEofTok] = .ok (0, [mkEofTok]) :=
  ⟨rfl, rfl, rfl⟩

/-- Adequacy of the `skip_conditional` scan against `SkipSpec`, proved
for every starting depth by strong induction on the stream length. -/
theorem skipSpec_of_skipConditionalFrom :
    ∀ (n : Nat) (ts : List Token), ts.length ≤ n → ∀ depth,
      ConditionalManager.SkipSpec depth ts
        (ConditionalManager.skipConditionalFrom depth ts) := by
  intro n
  induction n with
  | zero =>
    intro ts hts depth
    obtain rfl : ts = [] := List.eq_nil_of_length_eq_zero (Nat.le_zero.mp hts)
    exact ConditionalManager.SkipSpec.eofNil depth
  | succ n ih =>
    intro ts hts depth
    match ts with
    | [] => exact ConditionalManager.SkipSpec.eofNil depth
    | [t] =>
      rw [ConditionalManager.skipConditionalFrom.eq_3]
      by_cases heof : t.kind = TokenKind.TK_EOF
      · rw [if_pos heof]
        exact ConditionalManager.SkipSpec.eofTok depth t [] heof
      · rw [if_neg heof]
        exact ConditionalManager.SkipSpec.plain depth t [] _ heof
          (by simp [ConditionalManager.startsConditionalDirective])
          (ConditionalManager.SkipSpec.eofNil depth)
    | t :: next :: rest2 =>
      rw [ConditionalManager.skipConditionalFrom.eq_2]
      have hlen2 : rest2.length ≤ n := by simp at hts; omega
      have hlen1 : (next :: rest2).length ≤ n := by simp at hts ⊢; omega
      by_cases heof : t.kind = TokenKind.TK_EOF
      · rw [if_pos heof]
        exact ConditionalManager.SkipSpec.eofTok depth t (next :: rest2) heof
      · rw [if_neg heof]
        by_cases h1 : t.is_hash = true ∧ (next.equals "if" = true ∨
            next.equals "ifdef" = true ∨ next.equals "ifndef" = true)
        · rw [if_pos h1]
          exact ConditionalManager.SkipSpec.opening depth t next rest2 _ h1.1 h1.2
            (ih rest2 hlen2 (depth + 1))
        · rw [if_neg h1]
          by_cases h2 : t.is_hash = true ∧ next.equals "endif" = true
          · rw [if_pos h2]
            cases depth with
            | zero =>
              rw [if_pos rfl]
              exact ConditionalManager.SkipSpec.endifSame t next rest2 h2.1 h2.2
            | succ d =>
              rw [if_neg (Nat.succ_ne_zero d), Nat.add_sub_cancel]
              exact ConditionalManager.SkipSpec.endifNested d t next rest2 _ h2.1 h2.2
                (ih rest2 hlen2 d)
          · rw [if_neg h2]
            by_cases h3 : t.is_hash = true ∧ (next.equals "elif" = true ∨
                next.equals "else" = true)
            · rw [if_pos h3]
              cases depth with
              | zero =>
                rw [if_pos rfl]
                exact ConditionalManager.SkipSpec.elseSame t next rest2 h3.1 h3.2
              | succ d =>
                rw [if_neg (Nat.succ_ne_zero d)]
                exact ConditionalManager.SkipSpec.elseNested d t next rest2 _ h3.1 h3.2
                  (ih rest2 hlen2 (d + 1))
            · rw [if_neg h3]
              refine ConditionalManager.SkipSpec.plain depth t (next :: rest2) _ heof
                ?_ (ih (next :: rest2) hlen1 depth)
              rintro ⟨hh, hd⟩
              rcases hd with h | h | h | h | h | h
              · exact h1 ⟨hh, Or.inl h⟩
              · exact h1 ⟨hh, Or.inr (Or.inl h)⟩
              · exact h1 ⟨hh, Or.inr (Or.inr h)⟩
              · exact h2 ⟨hh, h⟩
              · exact h3 ⟨hh, Or.inl h⟩
              · exact h3 ⟨hh, Or.inr h⟩

/-- C6: for every token stream, `skip_conditional` meets its
specification: it scans forward tracking the nesting depth of
`#if`/`#ifdef`/`#ifndef` openings; on a same-depth `#elif`/`#else` it
returns the position of the `#` token of that directive; on a
same-depth `#endif` it returns the position after the `endif`
identifier; and on reaching EOF without a terminating directive it
raises the unterminated-conditional error. -/
theorem skip_conditional_meets_spec (token : List Token) :
    ConditionalManager.SkipSpec 0 token
      (ConditionalManager.skip_conditional token) :=
  skipSpec_of_skipConditionalFrom token.length token le_rfl 0

/-- C7: when `#ifdef` names a macro that is not in the table,
`IfdefCommand::execute` pushes a frame `⟨IN_THEN, command_token,
included := false⟩` and resumes at `skip_conditional` of the rest of
the line — the same-depth matching `#elif`/`#else`/`#endif` position,
per `SkipSpec` (second conjunct).  The macro table is returned exactly
as given: `execute` only calls the `const` lookup `find_macro`, and the
skip scan (see `skipConditionalFrom`) never dispatches directives, so
no macro defined inside the skipped block is registered. -/
theorem ifdef_undefined_skips_block (mm : MacroManager)
    (stack : List ConditionalEntry) (command_token name_token : Token)
    (rest2 : List Token) (hident : name_token.kind = TokenKind.TK_IDENT)
    (hundef : mm.find_macro name_token = none) :
    IfdefCommand.execute mm stack command_token (name_token :: rest2) =
      (ConditionalManager.skip_conditional (skip_lines rest2)).map
        (fun r => (mm,
          stack ++ [⟨ConditionalContext.IN_THEN, command_token, false⟩], r)) ∧
    ConditionalManager.SkipSpec 0 (skip_lines rest2)
      (ConditionalManager.skip_conditional (skip_lines rest2)) := by
  refine ⟨?_, skipSpec_of_skipConditionalFrom _ _ le_rfl 0⟩
  simp [IfdefCommand.execute, hident, hundef, ConditionalManager.push]

/-- Witness for C7: `#ifdef FOO` on an empty macro table, where the
skipped block contains a `#define BAR ONE` line; the table comes back
empty (no `BAR` registered), the pushed frame is not included, and the
continuation is the token after `#endif`. -/
theorem ifdef_undefined_skips_block_witness :
    IfdefCommand.execute ⟨[]⟩ [] (mkIdent "ifdef")
      (mkIdent "FOO" :: [mkHashTok, mkIdent "define", mkIdent "BAR",
        mkIdent "ONE", mkHashTok, mkIdent "endif", mkEofTok]) =
      .ok (⟨[]⟩,
        [⟨ConditionalContext.IN_THEN, mkIdent "ifdef", false⟩], [mkEofTok]) := by
  rw [(ifdef_undefined_skips_block ⟨[]⟩ [] (mkIdent "ifdef") (mkIdent "FOO")
    [mkHashTok, mkIdent "define", mkIdent "BAR", mkIdent "ONE",
      mkHashTok, mkIdent "endif", mkEofTok] rfl rfl).1]
  rfl

/-! ### LRU cache lemmas -/

/-- After erasing key `k` from a list with distinct keys, `k` is gone. -/
theorem key_not_mem_eraseP {K V : Type} [DecidableEq K]
    (s : List (K × V)) (k : K) (hnd : (s.map Prod.fst).Nodup) :
    k ∉ (s.eraseP (fun p => decide (p.1 = k))).map Prod.fst := by
  induction s with
  | nil => simp
  | cons q rest ih =>
    rw [List.map_cons, List.nodup_cons] at hnd
    by_cases hk : q.1 = k
    · rw [List.eraseP_cons_of_pos (by simp [hk])]
      exact fun hmem => hnd.1 (hk ▸ hmem)
    · rw [List.eraseP_cons_of_neg (by simp [hk]), List.map_cons]
      intro hmem
      rcases List.mem_cons.mp hmem with h | h
      · exact hk h.symm
      · exact ih hnd.2 h

/-- In a list with distinct keys, `find?` by the key of a member returns
that member. -/
theorem find?_key_of_mem {K V : Type} [DecidableEq K]
    (s : List (K × V)) (p : K × V) (hnd : (s.map Prod.fst).Nodup)
    (hmem : p ∈ s) :
    s.find? (fun q => decide (q.1 = p.1)) = some p := by
  induction s with
  | nil => cases hmem
  | cons q rest ih =>
    rw [List.map_cons, List.nodup_cons] at hnd
    rcases List.mem_cons.mp hmem with h | h
    · subst h
      exact List.find?_cons_of_pos rest (by simp)
    · have hne : ¬ q.1 = p.1 := fun he =>
        hnd.1 (he ▸ List.mem_map_of_mem Prod.fst h)
      rw [List.find?_cons_of_neg rest (by simp [hne])]
      exact ih hnd.2 h

/-- A key reported absent by `find?` is not among the mapped keys. -/
theorem key_not_mem_of_find?_none {K V : Type} [DecidableEq K]
    (s : List (K × V)) (k : K)
    (hnone : s.find? (fun p => decide (p.1 = k)) = none) :
    k ∉ s.map Prod.fst := by
  intro hmem
  obtain ⟨p, hp, hpk⟩ := List.mem_map.mp hmem
  exact absurd (by simpa using hpk) (by simpa using List.find?_eq_none.mp hnone p hp)

/-- Consing a freshly stamped pair onto a recency-sorted list with
distinct keys (not containing the new key) preserves the invariant. -/
theorem lruInv_cons_front {K V : Type} [DecidableEq K] (s' : List (K × V))
    (touch : K → Nat) (clock : Nat) (k : K) (v : V)
    (hnd : (s'.map Prod.fst).Nodup)
    (hpw : s'.Pairwise (fun a b => touch b.1 < touch a.1))
    (hcl : ∀ p ∈ s', touch p.1 < clock)
    (hk : k ∉ s'.map Prod.fst) :
    LruInv ⟨(k, v) :: s', Function.update touch k clock, clock + 1⟩ := by
  have hne : ∀ p ∈ s', p.1 ≠ k :=
    fun p hp he => hk (he ▸ List.mem_map_of_mem Prod.fst hp)
  refine ⟨?_, ?_, ?_⟩
  · rw [List.map_cons, List.nodup_cons]
    exact ⟨hk, hnd⟩
  · rw [List.pairwise_cons]
    constructor
    · intro b hb
      show Function.update touch k clock b.1 < Function.update touch k clock k
      rw [Function.update_same, Function.update_noteq (hne b hb)]
      exact hcl b hb
    · refine hpw.imp_of_mem ?_
      intro a b ha hb hlt
      show Function.update touch k clock b.1 < Function.update touch k clock a.1
      rw [Function.update_noteq (hne a ha), Function.update_noteq (hne b hb)]
      exact hlt
  · intro p hp
    rcases List.mem_cons.mp hp with h | h
    · subst h
      show Function.update touch k clock k < clock + 1
      rw [Function.update_same]
      omega
    · show Function.update touch k clock p.1 < clock + 1
      rw [Function.update_noteq (hne p h)]
      exact Nat.lt_succ_of_lt (hcl p h)

/-- One instrumented cache operation preserves the LRU invariant and
the capacity bound. -/
theorem lruStepT_inv {K V : Type} [DecidableEq K] (C : Nat) (hC : 1 ≤ C)
    (s : LruState K V) (hinv : LruInv s) (hlen : s.list.length ≤ C)
    (op : LruOp K V) :
    LruInv (lruStepT C s op) ∧ (lruStepT C s op).list.length ≤ C := by
  obtain ⟨hnd, hpw, hcl⟩ := hinv
  have herase_nd : ∀ k : K,
      (((s.list.eraseP (fun p => decide (p.1 = k))).map Prod.fst)).Nodup :=
    fun k => hnd.sublist ((List.eraseP_sublist s.list).map Prod.fst)
  have herase_pw : ∀ k : K,
      (s.list.eraseP (fun p => decide (p.1 = k))).Pairwise
        (fun a b => s.touch b.1 < s.touch a.1) :=
    fun k => hpw.sublist (List.eraseP_sublist s.list)
  have herase_cl : ∀ k : K,
      ∀ p ∈ s.list.eraseP (fun p => decide (p.1 = k)), s.touch p.1 < s.clock :=
    fun k p hp => hcl p (List.mem_of_mem_eraseP hp)
  have herase_len : ∀ k : K,
      (s.list.eraseP (fun p => decide (p.1 = k))).length ≤ s.list.length :=
    fun k => (List.eraseP_sublist s.list).length_le
  cases op with
  | put k v =>
    show LruInv ⟨lruPut C s.list k v, _, _⟩ ∧ (lruPut C s.list k v).length ≤ C
    rw [lruPut]
    rcases hfind : s.list.find? (fun p => decide (p.1 = k)) with _ | p
    · -- key absent
      have hk : k ∉ s.list.map Prod.fst := key_not_mem_of_find?_none s.list k hfind
      by_cases hfull : s.list.length ≥ C
      · rw [if_neg (by simp [hfind]), if_pos hfull]
        have hsub := List.dropLast_sublist s.list
        refine ⟨lruInv_cons_front _ _ _ _ _ (hnd.sublist (hsub.map Prod.fst))
          (hpw.sublist hsub) (fun p hp => hcl p (hsub.subset hp))
          (fun hmem => hk ((hsub.map Prod.fst).subset hmem)), ?_⟩
        rw [List.length_cons, List.length_dropLast]
        omega
      · rw [if_neg (by simp [hfind]), if_neg hfull]
        exact ⟨lruInv_cons_front _ _ _ _ _ hnd hpw hcl hk,
          by rw [List.length_cons]; omega⟩
    · -- key present: erase the old node, push the fresh pair
      rw [if_pos (by simp [hfind])]
      have hmem := List.mem_of_find?_eq_some hfind
      have hkey : p.1 = k := by simpa using List.find?_some hfind
      have hlen' := List.length_eraseP_add_one hmem
        (p := fun q => decide (q.1 = k)) (by simp [hkey])
      refine ⟨lruInv_cons_front _ _ _ _ _ (herase_nd k) (herase_pw k)
        (herase_cl k) (key_not_mem_eraseP s.list k hnd), ?_⟩
      rw [List.length_cons]
      omega
  | get k =>
    show LruInv (lruStepT C s (.get k)) ∧ (lruStepT C s (.get k)).list.length ≤ C
    rcases hfind : s.list.find? (fun p => decide (p.1 = k)) with _ | p
    · simp only [lruStepT, lruGet, hfind, Option.isSome_none, Bool.false_eq_true,
        if_false]
      exact ⟨⟨hnd, hpw, fun p hp => Nat.lt_succ_of_lt (hcl p hp)⟩, hlen⟩
    · have hmem := List.mem_of_find?_eq_some hfind
      have hkey : p.1 = k := by simpa using List.find?_some hfind
      have hlen' := List.length_eraseP_add_one hmem
        (p := fun q => decide (q.1 = k)) (by simp [hkey])
      simp only [lruStepT, lruGet, hfind, Option.isSome_some, if_true]
      obtain ⟨p1, p2⟩ := p
      obtain rfl : p1 = k := hkey
      refine ⟨lruInv_cons_front _ _ _ _ _ (herase_nd p1) (herase_pw p1)
        (herase_cl p1) (key_not_mem_eraseP s.list p1 hnd), ?_⟩
      rw [List.length_cons]
      omega
  | erase k =>
    show LruInv ⟨lruErase s.list k, _, _⟩ ∧ (lruErase s.list k).length ≤ C
    rw [lruErase]
    by_cases hfind : (s.list.find? (fun p => decide (p.1 = k))).isSome = true
    · rw [if_pos hfind]
      refine ⟨⟨herase_nd k, herase_pw k, fun p hp =>
        Nat.lt_succ_of_lt (herase_cl k p hp)⟩, le_trans (herase_len k) hlen⟩
    · rw [if_neg hfind]
      exact ⟨⟨hnd, hpw, fun p hp => Nat.lt_succ_of_lt (hcl p hp)⟩, hlen⟩

/-- Every operation sequence run from the empty cache satisfies the LRU
invariant and the capacity bound. -/
theorem lruRunT_inv {K V : Type} [DecidableEq K] (C : Nat) (hC : 1 ≤ C)
    (ops : List (LruOp K V)) :
    LruInv (lruRunT C ops) ∧ (lruRunT C ops).list.length ≤ C := by
  suffices h : ∀ (s : LruState K V), LruInv s → s.list.length ≤ C →
      LruInv (ops.foldl (lruStepT C) s) ∧
        (ops.foldl (lruStepT C) s).list.length ≤ C by
    exact h ⟨[], fun _ => 0, 0⟩ ⟨by simp, by simp, by simp⟩ (by simp)
  induction ops with
  | nil => exact fun s hinv hlen => ⟨hinv, hlen⟩
  | cons op rest ih =>
    intro s hinv hlen
    obtain ⟨hinv', hlen'⟩ := lruStepT_inv C hC s hinv hlen op
    exact ih (lruStepT C s op) hinv' hlen'

/-- C8: for an `LRUCache` of capacity `C ≥ 1`, (i) after any sequence of
`put`/`get`/`erase` operations the size never exceeds `C`; and (ii)
when the cache holds `C` entries, putting a fresh (`C+1`-th distinct)
key evicts exactly the back entry `(e, ve)` — the key whose most recent
touch (`get` or `put`) is strictly the oldest (second bullet) — that
key is no longer retrievable, while every other key is still
retrievable with its stored value and the new key with its own. -/
theorem lru_bounded_and_evicts_lru {K V : Type} [DecidableEq K]
    (C : Nat) (hC : 1 ≤ C) (ops : List (LruOp K V)) :
    (lruRunT C ops).list.length ≤ C ∧
    ∀ (k : K) (v : V),
      (lruRunT C ops).list.length = C →
      k ∉ (lruRunT C ops).list.map Prod.fst →
      ∃ e ve,
        (lruRunT C ops).list.getLast? = some (e, ve) ∧
        (∀ p ∈ (lruRunT C ops).list, p.1 ≠ e →
          (lruRunT C ops).touch e < (lruRunT C ops).touch p.1) ∧
        lruPut C (lruRunT C ops).list k v =
          (k, v) :: (lruRunT C ops).list.dropLast ∧
        (lruPut C (lruRunT C ops).list k v).length = C ∧
        (lruGet (lruPut C (lruRunT C ops).list k v) e).1 = none ∧
        (∀ p ∈ (lruRunT C ops).list, p.1 ≠ e →
          (lruGet (lruPut C (lruRunT C ops).list k v) p.1).1 = some p.2) ∧
        (lruGet (lruPut C (lruRunT C ops).list k v) k).1 = some v := by
  obtain ⟨⟨hnd, hpw, _⟩, hbound⟩ := lruRunT_inv C hC (V := V) ops
  refine ⟨hbound, ?_⟩
  intro k v hfull hfresh
  set s := (lruRunT C ops).list with hs
  have hne : s ≠ [] := by
    intro h
    rw [h] at hfull
    simp at hfull
    omega
  set last := s.getLast hne with hlast
  have hconcat : s.dropLast ++ [last] = s := List.dropLast_append_getLast hne
  have hlastmem : last ∈ s := List.getLast_mem hne
  have hkfresh : ∀ p ∈ s, p.1 ≠ k :=
    fun p hp he => hfresh (he ▸ List.mem_map_of_mem Prod.fst hp)
  have hfind_none : s.find? (fun p => decide (p.1 = k)) = none :=
    List.find?_eq_none.mpr fun p hp => by simpa using hkfresh p hp
  have hput : lruPut C s k v = (k, v) :: s.dropLast := by
    rw [lruPut, if_neg (by simp [hfind_none]), if_pos (by omega)]
  have hdlnd : ((s.dropLast.map Prod.fst)).Nodup :=
    hnd.sublist ((List.dropLast_sublist s).map Prod.fst)
  have hlast_not_dl : last.1 ∉ s.dropLast.map Prod.fst := by
    intro hmem
    have := hconcat ▸ hnd
    rw [List.map_append, List.nodup_append] at this
    exact this.2.2 hmem (by simp)
  have hmem_dl : ∀ p ∈ s, p.1 ≠ last.1 → p ∈ s.dropLast := by
    intro p hp hpe
    rcases List.mem_append.mp (by rw [hconcat]; exact hp : p ∈ s.dropLast ++ [last])
      with h | h
    · exact h
    · exact absurd (by simp at h; rw [h]) hpe
  refine ⟨last.1, last.2, ?_, ?_, hput, ?_, ?_, ?_, ?_⟩
  · rw [List.getLast?_eq_getLast_of_ne_nil hne]
  · -- the back entry's touch stamp is strictly minimal
    intro p hp hpe
    have hpairs := hconcat ▸ hpw
    rw [List.pairwise_append] at hpairs
    exact hpairs.2.2 p (hmem_dl p hp hpe) last (by simp)
  · rw [hput, List.length_cons, List.length_dropLast]
    omega
  · -- the evicted key is gone
    rw [hput, lruGet]
    have : ((k, v) :: s.dropLast).find? (fun p => decide (p.1 = last.1)) = none := by
      refine List.find?_eq_none.mpr ?_
      intro p hp
      rcases List.mem_cons.mp hp with h | h
      · subst h
        simpa using fun he => hkfresh last hlastmem he.symm
      · simpa using fun he =>
          hlast_not_dl (by rw [← he]; exact List.mem_map_of_mem Prod.fst h)
    rw [this]
  · -- every other key keeps its stored value
    intro p hp hpe
    have hpdl := hmem_dl p hp hpe
    rw [hput, lruGet]
    have hhead : ¬ ((k, v).1 = p.1) := fun he => hkfresh p hp he.symm
    rw [List.find?_cons_of_neg _ (by simpa using hhead),
      find?_key_of_mem s.dropLast p hdlnd hpdl]
  · -- the fresh key is retrievable with its new value
    rw [hput, lruGet, List.find?_cons_of_pos _ (by simp)]

/-- Witness for C8: a capacity-1 cache over `Nat` keys, after `put 0 10`
(so the cache is full), receiving the fresh key `1`. -/
theorem lru_bounded_and_evicts_lru_witness :
    (lruRunT (K := Nat) (V := Nat) 1 [LruOp.put 0 10]).list.length ≤ 1 ∧
    ∃ e ve,
      (lruRunT (K := Nat) (V := Nat) 1 [LruOp.put 0 10]).list.getLast? =
        some (e, ve) ∧
      (∀ p ∈ (lruRunT (K := Nat) (V := Nat) 1 [LruOp.put 0 10]).list, p.1 ≠ e →
        (lruRunT (K := Nat) (V := Nat) 1 [LruOp.put 0 10]).touch e <
          (lruRunT (K := Nat) (V := Nat) 1 [LruOp.put 0 10]).touch p.1) ∧
      lruPut 1 (lruRunT (K := Nat) (V := Nat) 1 [LruOp.put 0 10]).list 1 20 =
        (1, 20) ::
          (lruRunT (K := Nat) (V := Nat) 1 [LruOp.put 0 10]).list.dropLast ∧
      (lruPut 1 (lruRunT (K := Nat) (V := Nat) 1
        [LruOp.put 0 10]).list 1 20).length = 1 ∧
      (lruGet (lruPut 1 (lruRunT (K := Nat) (V := Nat) 1
        [LruOp.put 0 10]).list 1 20) e).1 = none ∧
      (∀ p ∈ (lruRunT (K := Nat) (V := Nat) 1 [LruOp.put 0 10]).list, p.1 ≠ e →
        (lruGet (lruPut 1 (lruRunT (K := Nat) (V := Nat) 1
          [LruOp.put 0 10]).list 1 20) p.1).1 = some p.2) ∧
      (lruGet (lruPut 1 (lruRunT (K := Nat) (V := Nat) 1
        [LruOp.put 0 10]).list 1 20) 1).1 = some 20 := by
  have h := lru_bounded_and_evicts_lru (K := Nat) (V := Nat) 1 (by decide)
    [LruOp.put 0 10]
  exact ⟨h.1, h.2 1 20 (by decide) (by decide)⟩

end CC11
